import Mathlib

/-!
Shallow embedding of `gcode_post_processor.py`: the record extractor
(`parse_gcode`), the region transform (`adjust_extrusion`), the stream
rewriter (`write_gcode`) and the selection session (`on_select`,
`confirm_selection`).  Lines are modelled as lists of characters; Python
floats are modelled as rationals; Python exceptions are modelled with
`Except`.
-/

/-- Whitespace characters recognised by Python's `str.split()` (the ASCII
ones; tab, newline, vertical tab, form feed, carriage return, space). -/
def isWs (c : Char) : Bool :=
  c = ' ' || c = '\t' || c = '\n' || c = '\r' || c.toNat = 11 || c.toNat = 12

/-- Accumulator-based worker for `splitWs`. -/
def splitWsAux : List Char → List Char → List (List Char)
  | [], acc => if acc = [] then [] else [acc.reverse]
  | c :: rest, acc =>
    if isWs c then
      if acc = [] then splitWsAux rest [] else acc.reverse :: splitWsAux rest []
    else splitWsAux rest (c :: acc)

/-- Python `line.split()`: split on runs of whitespace, dropping empty
tokens (leading and trailing whitespace contributes nothing, so the
preceding `strip()` in the source is a no-op for tokenisation). -/
def splitWs (s : List Char) : List (List Char) :=
  splitWsAux s []

/-- Python `' '.join(parts)`. -/
def joinSpace : List (List Char) → List Char
  | [] => []
  | [t] => t
  | t :: ts => t ++ ' ' :: joinSpace ts

/-- Python `'G1' in line`: substring containment of the two-character tag. -/
def containsG1 : List Char → Bool
  | 'G' :: '1' :: _ => true
  | _ :: rest => containsG1 rest
  | [] => false

/-- Python `part.startswith(m)` for a single-character marker `m`
(false on the empty token). -/
def startsC (m : Char) : List Char → Bool
  | [] => false
  | c :: _ => c = m

deriving instance DecidableEq for Except

/-- Multiplication on `ℚ` through `Rat.divInt`, definitionally evaluable by
the kernel (the library's `Rat.mul` is `@[irreducible]`); `qmul_eq` below
identifies it with `*`. -/
def qmul (a b : ℚ) : ℚ := Rat.divInt (a.num * b.num) ((a.den : ℤ) * (b.den : ℤ))

/-- Addition on `ℚ` through `Rat.divInt`, definitionally evaluable. -/
def qadd (a b : ℚ) : ℚ :=
  Rat.divInt (a.num * (b.den : ℤ) + b.num * (a.den : ℤ)) ((a.den : ℤ) * (b.den : ℤ))

/-- Division on `ℚ` through `Rat.divInt`, definitionally evaluable. -/
def qdiv (a b : ℚ) : ℚ := Rat.divInt (a.num * (b.den : ℤ)) ((a.den : ℤ) * b.num)

/-- The rational `10 ^ n`, computed on `ℕ`. -/
def qpow10 (n : ℕ) : ℚ := ((10 ^ n : ℕ) : ℚ)

theorem qmul_eq (a b : ℚ) : qmul a b = a * b := by
  rw [qmul, ← Rat.divInt_mul_divInt', Rat.num_divInt_den, Rat.num_divInt_den]

/-- Floor of a rational (the denominator is positive, so Euclidean division
of the numerator by the denominator computes the floor). -/
def floorQ (q : ℚ) : ℤ := q.num.ediv (q.den : ℤ)

/-- Rounding to the nearest integer (half away from zero upward); ties at
half units never arise in the claims settled here. -/
def roundQ (q : ℚ) : ℤ := floorQ (qadd q (Rat.divInt 1 2))

/-- Numeric value of a decimal digit character. -/
def digitVal (c : Char) : ℕ := c.toNat - 48

/-- Value of a digit string read in base 10. -/
def digitsVal (ds : List Char) : ℕ :=
  ds.foldl (fun a c => a * 10 + digitVal c) 0

/-- Exponent digits of a float literal: applies `* 10 ^ d` (or `/ 10 ^ d`
for a negative exponent) to the mantissa; fails on an empty or non-digit
exponent part. -/
def decExpDigits (b : ℚ) (pos : Bool) (ds : List Char) : Option ℚ :=
  if ds = [] then none
  else if ds.all Char.isDigit then
    some (if pos then qmul b (qpow10 (digitsVal ds)) else qdiv b (qpow10 (digitsVal ds)))
  else none

/-- Optionally signed exponent part of a float literal. -/
def decExp (b : ℚ) : List Char → Option ℚ
  | '+' :: ds => decExpDigits b true ds
  | '-' :: ds => decExpDigits b false ds
  | ds => decExpDigits b true ds

/-- Unsigned part of a float literal: digits, optional fraction after a
decimal point, optional exponent introduced by `e` or `E`. -/
def parseUnsigned (s : List Char) : Option ℚ :=
  let ip := s.takeWhile Char.isDigit
  let rest := s.dropWhile Char.isDigit
  match rest with
  | [] => if ip = [] then none else some (digitsVal ip)
  | '.' :: r2 =>
    let fp := r2.takeWhile Char.isDigit
    let r3 := r2.dropWhile Char.isDigit
    if ip = [] ∧ fp = [] then none
    else
      let b : ℚ := qadd (digitsVal ip) (qdiv (digitsVal fp) (qpow10 fp.length))
      match r3 with
      | [] => some b
      | 'e' :: r4 => decExp b r4
      | 'E' :: r4 => decExp b r4
      | _ => none
  | 'e' :: r2 => if ip = [] then none else decExp (digitsVal ip) r2
  | 'E' :: r2 => if ip = [] then none else decExp (digitsVal ip) r2
  | _ => none

/-- Python's `float(s)` on the finite decimal literals that occur in this
program's tokens (optional sign, digits, decimal point, exponent);
returns `none` exactly when `float` would raise `ValueError`. -/
def parseFloat (s : List Char) : Option ℚ :=
  match s with
  | '+' :: r => parseUnsigned r
  | '-' :: r => (parseUnsigned r).map (fun q => -q)
  | r => parseUnsigned r

/-- One extracted motion record: a row `[x, y, e]` of the `gcode_data`
array, with the spec's field names. -/
structure MotionRecord where
  x : ℚ
  y : ℚ
  deposition : ℚ
deriving DecidableEq

/-- The token scan of `parse_gcode`'s inner `for part in parts` loop:
the running `x, y, e` locals (initially `None`), updated by the
`startswith` / `elif` chain, with `float` failure raising (modelled as
`Except.error`).  A later marker token overwrites an earlier one. -/
def scanTokens : List (List Char) → Option ℚ → Option ℚ → Option ℚ →
    Except Unit (Option ℚ × Option ℚ × Option ℚ)
  | [], x, y, e => .ok (x, y, e)
  | t :: ts, x, y, e =>
    if startsC 'X' t then
      match parseFloat (t.tail) with
      | none => .error ()
      | some v => scanTokens ts (some v) y e
    else if startsC 'Y' t then
      match parseFloat (t.tail) with
      | none => .error ()
      | some v => scanTokens ts x (some v) e
    else if startsC 'E' t then
      match parseFloat (t.tail) with
      | none => .error ()
      | some v => scanTokens ts x y (some v)
    else scanTokens ts x y e

/-- Processing of a single source line by `parse_gcode`: lines without the
`G1` tag are ignored; on tagged lines the tokens are scanned, and a record
is produced exactly when all of `x`, `y`, `e` were assigned. -/
def parseLine (l : List Char) : Except Unit (Option MotionRecord) :=
  if containsG1 l then
    match scanTokens (splitWs l) none none none with
    | .error _ => .error ()
    | .ok (some x, some y, some e) => .ok (some ⟨x, y, e⟩)
    | .ok _ => .ok none
  else .ok none

/-- `parse_gcode`: fold over the source lines, appending one record per
qualifying line, aborting the whole extraction on the first malformed
marker token. -/
def parse_gcode : List (List Char) → Except Unit (List MotionRecord)
  | [] => .ok []
  | l :: rest =>
    match parseLine l, parse_gcode rest with
    | .error _, _ => .error ()
    | .ok _, .error _ => .error ()
    | .ok (some g), .ok rs => .ok (g :: rs)
    | .ok none, .ok rs => .ok rs

/-- The records contributed by one line in a successful extraction. -/
def lineRecords (l : List Char) : List MotionRecord :=
  match parseLine l with
  | .ok (some g) => [g]
  | _ => []

/-- Spec-side per-line test: some whitespace token starts with marker `m`
and its remainder parses as a number. -/
def hasParsedTok (m : Char) (l : List Char) : Bool :=
  (splitWs l).any (fun t => startsC m t && (parseFloat (t.tail)).isSome)

/-- Spec-side qualification of a line (the claim's right-hand side): the
line contains the tag and has parsing `X`, `Y` and `E` tokens. -/
def lineQualifies (l : List Char) : Bool :=
  containsG1 l && hasParsedTok 'X' l && hasParsedTok 'Y' l && hasParsedTok 'E' l

/-- Decimal digits of `n`, padded on the left with `'0'` to width 5:
the fractional part of Python's `.5f` format. -/
def pad5 (ds : List Char) : List Char :=
  List.replicate (5 - ds.length) '0' ++ ds

/-- Python's fixed-point format `f'{v:.5f}'`: the value rounded to 5
digits after the decimal point, always printing all 5 digits. -/
def format5 (q : ℚ) : List Char :=
  let n : ℤ := roundQ (qmul q 100000)
  let m : ℕ := n.natAbs
  (if n < 0 then ['-'] else []) ++
    Nat.toDigits 10 (m / 100000) ++ '.' :: pad5 (Nat.toDigits 10 (m % 100000))

/-- The inner token loop of `write_gcode` on one tagged line: each token
prefixed with `'E'` is replaced by `'E'` followed by the current record's
formatted deposition and the cursor advances, unless the cursor has
reached the end of the records, in which case the token is kept; all
other tokens are kept.  Returns the rewritten tokens and the new cursor. -/
def rewriteParts : List (List Char) → List MotionRecord → ℕ → List (List Char) × ℕ
  | [], _, i => ([], i)
  | t :: ts, recs, i =>
    if startsC 'E' t then
      if h : i < recs.length then
        let p := rewriteParts ts recs (i + 1)
        (('E' :: format5 (recs.get ⟨i, h⟩).deposition) :: p.1, p.2)
      else
        let p := rewriteParts ts recs i
        (t :: p.1, p.2)
    else
      let p := rewriteParts ts recs i
      (t :: p.1, p.2)

/-- The line loop of `write_gcode`, carrying the record cursor
`gcode_index`: untagged lines are copied verbatim; tagged lines are
stripped, tokenised, rewritten by `rewriteParts` and re-joined with
single spaces. -/
def write_gcodeFrom : List (List Char) → List MotionRecord → ℕ → List (List Char)
  | [], _, _ => []
  | l :: rest, recs, i =>
    if containsG1 l then
      let p := rewriteParts (splitWs l) recs i
      joinSpace p.1 :: write_gcodeFrom rest recs p.2
    else l :: write_gcodeFrom rest recs i

/-- `write_gcode`: rewrite the original lines against the (possibly
transformed) record sequence, starting with `gcode_index = 0`. -/
def write_gcode (lines : List (List Char)) (recs : List MotionRecord) : List (List Char) :=
  write_gcodeFrom lines recs 0

/-- Number of tokens of a line that start with the deposition marker. -/
def countE (toks : List (List Char)) : ℕ :=
  (toks.filter (fun t => startsC 'E' t)).length

/-- The membership test of `adjust_extrusion`'s mask: both coordinates
within the closed ranges. -/
def inRegion (x_range y_range : ℚ × ℚ) (g : MotionRecord) : Bool :=
  decide (x_range.1 ≤ g.x) && decide (g.x ≤ x_range.2) &&
    decide (y_range.1 ≤ g.y) && decide (g.y ≤ y_range.2)

/-- `adjust_extrusion`: multiply the deposition of every record inside the
rectangular bound by the ratio; all other entries are untouched.  The
mask of the source is computed from the (unmodified) coordinate columns,
so the elementwise map is equivalent to the vectorised update. -/
def adjust_extrusion (gcode : List MotionRecord) (x_range y_range : ℚ × ℚ)
    (target_ratio : ℚ) : List MotionRecord :=
  gcode.map (fun g =>
    if inRegion x_range y_range g then
      { g with deposition := qmul g.deposition target_ratio }
    else g)

/-- The process-wide mutable state of the script: the record sequence,
the two append-only operation logs, the last drawn rectangle
(`x_range`, `y_range`, absent before any selection) and whether the
confirm button is active. -/
structure Session where
  gcode_data : List MotionRecord
  selected_areas : List ((ℚ × ℚ) × (ℚ × ℚ))
  extrusion_multipliers : List ℚ
  pending : Option ((ℚ × ℚ) × (ℚ × ℚ))
  confirmActive : Bool
deriving DecidableEq

/-- The spec's selection-session states. -/
inductive SessState where
  | Idle
  | RegionPending
deriving DecidableEq

/-- The session state as encoded by the script: the confirm button is
enabled exactly while a drawn region awaits confirmation (it starts
disabled, `on_select` enables it, `confirm_selection` disables it). -/
def sessionState (s : Session) : SessState :=
  if s.confirmActive then .RegionPending else .Idle

/-- `on_select`: store the normalised rectangle of the drag and enable
the confirm button. -/
def on_select (s : Session) (p1 p2 : ℚ × ℚ) : Session :=
  { s with
    pending := some ((min p1.1 p2.1, max p1.1 p2.1), (min p1.2 p2.2, max p1.2 p2.2)),
    confirmActive := true }

/-- `confirm_selection`: the button is deactivated first, unconditionally;
then the typed ratio is parsed.  On parse failure (`ValueError`) nothing
else happens.  On success the area and multiplier are appended to the
logs and `adjust_extrusion` is applied to the record sequence.  (If no
region was ever drawn the `NameError` on the globals is caught by the
blanket `except` with no mutation, modelled by the `none` branch.) -/
def confirm_selection (s : Session) (ratioText : List Char) : Session :=
  let s1 := { s with confirmActive := false }
  match parseFloat ratioText with
  | none => s1
  | some r =>
    match s1.pending with
    | none => s1
    | some (xr, yr) =>
      { s1 with
        selected_areas := s1.selected_areas ++ [(xr, yr)],
        extrusion_multipliers := s1.extrusion_multipliers ++ [r],
        gcode_data := adjust_extrusion s1.gcode_data xr yr r }

/-- A click on the confirm button: ignored while the widget is inactive. -/
def confirmClick (s : Session) (ratioText : List Char) : Session :=
  if s.confirmActive then confirm_selection s ratioText else s

/-- Spec-side description of the extracted sequence: per-line records
concatenated in source order. -/
def extractedRecords : List (List Char) → List MotionRecord
  | [] => []
  | l :: rest => lineRecords l ++ extractedRecords rest

/-- Spec-side expected effect of the ratio-1 round trip on one token: a
deposition token is re-formatted to 5 decimal places from its own
original numeric value, every other token is unchanged. -/
def etokFormat (t : List Char) : List Char :=
  if startsC 'E' t then 'E' :: format5 ((parseFloat (t.tail)).getD 0) else t

/-- Spec-side expected output of the ratio-1 round trip: untagged lines
verbatim, tagged lines re-joined with each deposition token re-formatted
from its own original value. -/
def roundtripExpected (lines : List (List Char)) : List (List Char) :=
  lines.map (fun l =>
    if containsG1 l then joinSpace ((splitWs l).map etokFormat) else l)

/-- Alignment of the two scans: every tagged line carries exactly as many
deposition-marker tokens as the records it contributed (one for a
qualifying line, zero otherwise).  Inputs violating this exhibit the
correspondence hazard of §4.4. -/
def aligned (lines : List (List Char)) : Prop :=
  ∀ l ∈ lines, containsG1 l = true → countE (splitWs l) = (lineRecords l).length

instance alignedDecidable (lines : List (List Char)) : Decidable (aligned lines) :=
  decidable_of_iff
    (∀ l ∈ lines, containsG1 l = true → countE (splitWs l) = (lineRecords l).length)
    Iff.rfl

/-- Spec-side cursor value after processing one line: a tagged line
consumes one record per deposition-marker token, clamped at the end of
the record sequence; an untagged line consumes nothing. -/
def cursorAfterLine (recs : List MotionRecord) (l : List Char) (i : ℕ) : ℕ :=
  if containsG1 l then min (i + countE (splitWs l)) recs.length else i

/-- Spec-side cursor value entering line `k` of the rewrite, starting
from cursor `i` at line 0. -/
def cursorAt : List (List Char) → List MotionRecord → ℕ → ℕ → ℕ
  | _, _, i, 0 => i
  | [], _, i, _ + 1 => i
  | l :: rest, recs, i, k + 1 => cursorAt rest recs (cursorAfterLine recs l i) k

/-! ## Region transform -/

theorem inRegion_iff (xr yr : ℚ × ℚ) (g : MotionRecord) :
    inRegion xr yr g = true ↔
      (xr.1 ≤ g.x ∧ g.x ≤ xr.2 ∧ yr.1 ≤ g.y ∧ g.y ≤ yr.2) := by
  simp [inRegion, and_assoc]

theorem adjust_extrusion_getElem (gcode : List MotionRecord) (xr yr : ℚ × ℚ)
    (ratio : ℚ) (k : ℕ) (h : k < gcode.length)
    (h2 : k < (adjust_extrusion gcode xr yr ratio).length) :
    (adjust_extrusion gcode xr yr ratio)[k] =
      if inRegion xr yr gcode[k] then
        { gcode[k] with deposition := qmul gcode[k].deposition ratio }
      else gcode[k] := by
  simp [adjust_extrusion]

theorem adjust_extrusion_length (gcode : List MotionRecord) (xr yr : ℚ × ℚ)
    (ratio : ℚ) : (adjust_extrusion gcode xr yr ratio).length = gcode.length := by
  simp [adjust_extrusion]

/-- Claim C4: the region transform multiplies the deposition by the ratio
for exactly the records whose position satisfies the four inclusive
bound inequalities, and leaves the deposition of every other record
unchanged. -/
theorem adjust_extrusion_boundary (gcode : List MotionRecord) (xr yr : ℚ × ℚ)
    (ratio : ℚ) (k : ℕ) (h : k < gcode.length)
    (h2 : k < (adjust_extrusion gcode xr yr ratio).length) :
    ((adjust_extrusion gcode xr yr ratio)[k]).deposition =
      if xr.1 ≤ gcode[k].x ∧ gcode[k].x ≤ xr.2 ∧
          yr.1 ≤ gcode[k].y ∧ gcode[k].y ≤ yr.2 then
        gcode[k].deposition * ratio
      else gcode[k].deposition := by
  rw [adjust_extrusion_getElem gcode xr yr ratio k h h2]
  by_cases hin : inRegion xr yr gcode[k] = true
  · rw [if_pos hin, if_pos ((inRegion_iff xr yr _).mp hin)]
    simp [qmul_eq]
  · rw [if_neg hin, if_neg (fun hc => hin ((inRegion_iff xr yr _).mpr hc))]

/-- Instantiation of C4 at a record lying exactly on `x_min` (included)
for a region `x:[1,2], y:[0,2]` and ratio `5`. -/
theorem adjust_extrusion_boundary_witness :
    (((adjust_extrusion [⟨1, 1, 3⟩] (1, 2) (0, 2) 5).get ⟨0, by decide⟩)).deposition =
      if (1 : ℚ) ≤ 1 ∧ (1 : ℚ) ≤ 2 ∧ (0 : ℚ) ≤ 1 ∧ (1 : ℚ) ≤ 2 then (3 : ℚ) * 5
      else 3 :=
  adjust_extrusion_boundary [⟨1, 1, 3⟩] (1, 2) (0, 2) 5 0 (by decide) (by decide)

/-- Claim C8: the region transform only rewrites the deposition field: the
coordinates of every record are unchanged, a record outside the region is
returned unchanged, and the result is the input sequence elementwise
updated (same length). -/
theorem adjust_extrusion_frame (gcode : List MotionRecord) (xr yr : ℚ × ℚ)
    (ratio : ℚ) :
    (adjust_extrusion gcode xr yr ratio).length = gcode.length ∧
    ∀ (k : ℕ) (h : k < gcode.length)
      (h2 : k < (adjust_extrusion gcode xr yr ratio).length),
      ((adjust_extrusion gcode xr yr ratio)[k]).x = gcode[k].x ∧
      ((adjust_extrusion gcode xr yr ratio)[k]).y = gcode[k].y ∧
      (inRegion xr yr gcode[k] = false →
        (adjust_extrusion gcode xr yr ratio)[k] = gcode[k]) := by
  refine ⟨adjust_extrusion_length gcode xr yr ratio, fun k h h2 => ?_⟩
  rw [adjust_extrusion_getElem gcode xr yr ratio k h h2]
  by_cases hin : inRegion xr yr gcode[k] = true
  · simp [hin]
  · rw [if_neg hin]
    simp

/-- Instantiation of C8: a record strictly outside the region is returned
unchanged, coordinates untouched. -/
theorem adjust_extrusion_frame_witness :
    (((adjust_extrusion [⟨5, 5, 3⟩] (0, 2) (0, 2) 7).get ⟨0, by decide⟩)).x = (5 : ℚ) ∧
    ((adjust_extrusion [⟨5, 5, 3⟩] (0, 2) (0, 2) 7).get ⟨0, by decide⟩) = ⟨5, 5, 3⟩ := by
  have h := (adjust_extrusion_frame [⟨5, 5, 3⟩] (0, 2) (0, 2) 7).2 0 (by decide) (by decide)
  exact ⟨h.1, h.2.2 (by decide)⟩

/-- Claim C5: the transform is cumulative: two successive applications
multiply the deposition of a record inside both regions by the product of
the two ratios, compounding on the stored value rather than resetting. -/
theorem adjust_extrusion_compounding (gcode : List MotionRecord)
    (xr1 yr1 xr2 yr2 : ℚ × ℚ) (r1 r2 : ℚ) (k : ℕ) (h : k < gcode.length)
    (h1 : inRegion xr1 yr1 gcode[k] = true)
    (h2 : inRegion xr2 yr2 gcode[k] = true)
    (h3 : k < (adjust_extrusion (adjust_extrusion gcode xr1 yr1 r1) xr2 yr2 r2).length) :
    ((adjust_extrusion (adjust_extrusion gcode xr1 yr1 r1) xr2 yr2 r2)[k]).deposition =
      gcode[k].deposition * (r1 * r2) := by
  have hlen : k < (adjust_extrusion gcode xr1 yr1 r1).length := by
    rw [adjust_extrusion_length]; exact h
  rw [adjust_extrusion_getElem _ xr2 yr2 r2 k hlen h3,
    adjust_extrusion_getElem gcode xr1 yr1 r1 k h hlen, if_pos h1]
  have hin2 : inRegion xr2 yr2
      { gcode[k] with deposition := qmul gcode[k].deposition r1 } = true := by
    simpa [inRegion] using h2
  rw [if_pos hin2]
  simp [qmul_eq, mul_assoc]

/-- Instantiation of C5: ratios `2` then `5` on regions both containing
the record multiply its deposition `3` by `2 * 5`. -/
theorem adjust_extrusion_compounding_witness :
    ((adjust_extrusion (adjust_extrusion [⟨1, 1, 3⟩] (0, 2) (0, 2) 2)
        (0, 4) (0, 4) 5).get ⟨0, by decide⟩).deposition = (3 : ℚ) * (2 * 5) :=
  adjust_extrusion_compounding [⟨1, 1, 3⟩] (0, 2) (0, 2) (0, 4) (0, 4) 2 5 0
    (by decide) (by decide) (by decide) (by decide)

/-! ## Stream rewriter -/

theorem rewriteParts_cons_E_lt (t : List Char) (ts : List (List Char))
    (recs : List MotionRecord) (i : ℕ) (hE : startsC 'E' t = true)
    (hb : i < recs.length) :
    rewriteParts (t :: ts) recs i =
      (('E' :: format5 (recs.get ⟨i, hb⟩).deposition) :: (rewriteParts ts recs (i + 1)).1,
        (rewriteParts ts recs (i + 1)).2) := by
  simp [rewriteParts, hE, hb]

theorem rewriteParts_cons_E_ge (t : List Char) (ts : List (List Char))
    (recs : List MotionRecord) (i : ℕ) (hE : startsC 'E' t = true)
    (hb : ¬ i < recs.length) :
    rewriteParts (t :: ts) recs i =
      (t :: (rewriteParts ts recs i).1, (rewriteParts ts recs i).2) := by
  simp [rewriteParts, hE, hb]

theorem rewriteParts_cons_nE (t : List Char) (ts : List (List Char))
    (recs : List MotionRecord) (i : ℕ) (hE : startsC 'E' t = false) :
    rewriteParts (t :: ts) recs i =
      (t :: (rewriteParts ts recs i).1, (rewriteParts ts recs i).2) := by
  simp [rewriteParts, hE]

theorem rewriteParts_token_rel (recs : List MotionRecord)
    (toks : List (List Char)) (i : ℕ) :
    List.Forall₂ (fun t o =>
      (startsC 'E' t = false → o = t) ∧
      (startsC 'E' t = true → o = t ∨ ∃ g ∈ recs, o = 'E' :: format5 g.deposition))
      toks (rewriteParts toks recs i).1 := by
  induction toks generalizing i with
  | nil => simp [rewriteParts]
  | cons t ts ih =>
    by_cases hE : startsC 'E' t = true
    · by_cases hb : i < recs.length
      · rw [rewriteParts_cons_E_lt t ts recs i hE hb]
        refine List.Forall₂.cons ⟨fun hf => ?_, fun _ => Or.inr ?_⟩ (ih (i + 1))
        · rw [hE] at hf; exact absurd hf (by simp)
        · exact ⟨recs.get ⟨i, hb⟩, recs.get_mem _ _, rfl⟩
      · rw [rewriteParts_cons_E_ge t ts recs i hE hb]
        exact List.Forall₂.cons ⟨fun _ => rfl, fun _ => Or.inl rfl⟩ (ih i)
    · have hE2 : startsC 'E' t = false := by simpa using hE
      rw [rewriteParts_cons_nE t ts recs i hE2]
      exact List.Forall₂.cons ⟨fun _ => rfl, fun _ => Or.inl rfl⟩ (ih i)

theorem write_gcodeFrom_cons_G1 (l : List Char) (rest : List (List Char))
    (recs : List MotionRecord) (i : ℕ) (hG : containsG1 l = true) :
    write_gcodeFrom (l :: rest) recs i =
      joinSpace (rewriteParts (splitWs l) recs i).1 ::
        write_gcodeFrom rest recs (rewriteParts (splitWs l) recs i).2 := by
  simp [write_gcodeFrom, hG]

theorem write_gcodeFrom_cons_nG1 (l : List Char) (rest : List (List Char))
    (recs : List MotionRecord) (i : ℕ) (hG : containsG1 l = false) :
    write_gcodeFrom (l :: rest) recs i = l :: write_gcodeFrom rest recs i := by
  simp [write_gcodeFrom, hG]

theorem write_gcodeFrom_rel (recs : List MotionRecord)
    (lines : List (List Char)) (i : ℕ) :
    List.Forall₂ (fun l out =>
      (containsG1 l = false → out = l) ∧
      (containsG1 l = true → ∃ toks, out = joinSpace toks ∧
        List.Forall₂ (fun t o =>
          (startsC 'E' t = false → o = t) ∧
          (startsC 'E' t = true → o = t ∨ ∃ g ∈ recs, o = 'E' :: format5 g.deposition))
          (splitWs l) toks))
      lines (write_gcodeFrom lines recs i) := by
  induction lines generalizing i with
  | nil => simp [write_gcodeFrom]
  | cons l rest ih =>
    by_cases hG : containsG1 l = true
    · rw [write_gcodeFrom_cons_G1 l rest recs i hG]
      refine List.Forall₂.cons ⟨fun hf => ?_, fun _ => ?_⟩ (ih _)
      · rw [hG] at hf; exact absurd hf (by simp)
      · exact ⟨(rewriteParts (splitWs l) recs i).1, rfl, rewriteParts_token_rel recs _ i⟩
    · have hG2 : containsG1 l = false := by simpa using hG
      rw [write_gcodeFrom_cons_nG1 l rest recs i hG2]
      exact List.Forall₂.cons ⟨fun _ => rfl, fun hf => absurd hf (by simp [hG2])⟩ (ih i)

theorem countE_cons_E (t : List Char) (ts : List (List Char))
    (hE : startsC 'E' t = true) : countE (t :: ts) = countE ts + 1 := by
  simp [countE, hE]

theorem countE_cons_nE (t : List Char) (ts : List (List Char))
    (hE : startsC 'E' t = false) : countE (t :: ts) = countE ts := by
  simp [countE, hE]

theorem rewriteParts_cursor_min (toks : List (List Char))
    (recs : List MotionRecord) (i : ℕ) (h : i ≤ recs.length) :
    (rewriteParts toks recs i).2 = min (i + countE toks) recs.length := by
  induction toks generalizing i with
  | nil => simp [rewriteParts, countE]; omega
  | cons t ts ih =>
    by_cases hE : startsC 'E' t = true
    · rw [countE_cons_E t ts hE]
      by_cases hb : i < recs.length
      · rw [rewriteParts_cons_E_lt t ts recs i hE hb, ih (i + 1) (by omega)]
        omega
      · rw [rewriteParts_cons_E_ge t ts recs i hE hb, ih i h]
        omega
    · have hE2 : startsC 'E' t = false := by simpa using hE
      rw [countE_cons_nE t ts hE2, rewriteParts_cons_nE t ts recs i hE2, ih i h]

theorem get_index_congr {α : Type} (l : List α) {n m : ℕ} (e : n = m)
    (h1 : n < l.length) (h2 : m < l.length) : l.get ⟨n, h1⟩ = l.get ⟨m, h2⟩ := by
  subst e; rfl

theorem cursorAt_zero (lines : List (List Char)) (recs : List MotionRecord)
    (i : ℕ) : cursorAt lines recs i 0 = i := by
  cases lines <;> rfl

theorem cursorAt_succ_cons (a : List Char) (rest : List (List Char))
    (recs : List MotionRecord) (i k : ℕ) :
    cursorAt (a :: rest) recs i (k + 1) =
      cursorAt rest recs (cursorAfterLine recs a i) k := rfl

/-- Exact attribution of the token rewrite: the token at position `j`
is kept if it does not start with `'E'`; if it does, it is replaced by
the record at index `i + (number of E-tokens before j)` when that index
is in range, and kept once the records are exhausted. -/
theorem rewriteParts_attrib (toks : List (List Char)) (recs : List MotionRecord)
    (i : ℕ) :
    ∀ (j : ℕ) (t : List Char), toks[j]? = some t →
      (startsC 'E' t = false → (rewriteParts toks recs i).1[j]? = some t) ∧
      (startsC 'E' t = true →
        (∀ (hc : i + countE (toks.take j) < recs.length),
          (rewriteParts toks recs i).1[j]? =
            some ('E' :: format5
              ((recs.get ⟨i + countE (toks.take j), hc⟩).deposition))) ∧
        (recs.length ≤ i + countE (toks.take j) →
          (rewriteParts toks recs i).1[j]? = some t)) := by
  induction toks generalizing i with
  | nil => intro j t hjt; simp at hjt
  | cons a ts ih =>
    intro j t hjt
    cases j with
    | zero =>
      simp at hjt
      subst hjt
      have h0 : countE ((a :: ts).take 0) = 0 := rfl
      by_cases hE : startsC 'E' a = true
      · refine ⟨fun hf => absurd hE (by simp [hf]),
          fun _ => ⟨fun hc => ?_, fun hge => ?_⟩⟩
        · have hb : i < recs.length := by rw [h0] at hc; omega
          rw [rewriteParts_cons_E_lt a ts recs i hE hb]
          simp only [List.getElem?_cons_zero, Option.some.injEq]
          rw [get_index_congr recs (show i = i + countE ((a :: ts).take 0) by omega) hb hc]
        · rw [h0] at hge
          have hb : ¬ i < recs.length := by omega
          rw [rewriteParts_cons_E_ge a ts recs i hE hb]
          simp
      · have hE2 : startsC 'E' a = false := by simpa using hE
        refine ⟨fun _ => ?_, fun hf => absurd hf (by simp [hE2])⟩
        rw [rewriteParts_cons_nE a ts recs i hE2]
        simp
    | succ j =>
      simp at hjt
      by_cases hE : startsC 'E' a = true
      · have htake : countE ((a :: ts).take (j + 1)) = countE (ts.take j) + 1 := by
          rw [List.take_succ_cons, countE_cons_E a _ hE]
        by_cases hb : i < recs.length
        · rw [rewriteParts_cons_E_lt a ts recs i hE hb]
          have H := ih (i + 1) j t hjt
          refine ⟨fun hf => ?_, fun hEt => ⟨fun hc => ?_, fun hge => ?_⟩⟩
          · simpa using H.1 hf
          · have hc2 : (i + 1) + countE (ts.take j) < recs.length := by
              rw [htake] at hc; omega
            have e := (H.2 hEt).1 hc2
            simp only [List.getElem?_cons_succ]
            rw [e, get_index_congr recs
              (show (i + 1) + countE (ts.take j) =
                i + countE ((a :: ts).take (j + 1)) by rw [htake]; omega) hc2 hc]
          · have hge2 : recs.length ≤ (i + 1) + countE (ts.take j) := by
              rw [htake] at hge; omega
            simpa using (H.2 hEt).2 hge2
        · rw [rewriteParts_cons_E_ge a ts recs i hE hb]
          have H := ih i j t hjt
          refine ⟨fun hf => ?_, fun hEt => ⟨fun hc => ?_, fun hge => ?_⟩⟩
          · simpa using H.1 hf
          · exact absurd (by rw [htake] at hc; omega : i < recs.length) hb
          · have hge2 : recs.length ≤ i + countE (ts.take j) := by omega
            simpa using (H.2 hEt).2 hge2
      · have hE2 : startsC 'E' a = false := by simpa using hE
        have htake : countE ((a :: ts).take (j + 1)) = countE (ts.take j) := by
          rw [List.take_succ_cons, countE_cons_nE a _ hE2]
        rw [rewriteParts_cons_nE a ts recs i hE2]
        have H := ih i j t hjt
        refine ⟨fun hf => ?_, fun hEt => ⟨fun hc => ?_, fun hge => ?_⟩⟩
        · simpa using H.1 hf
        · have hc2 : i + countE (ts.take j) < recs.length := by
            rw [htake] at hc; exact hc
          have e := (H.2 hEt).1 hc2
          simp only [List.getElem?_cons_succ]
          rw [e, get_index_congr recs
            (show i + countE (ts.take j) =
              i + countE ((a :: ts).take (j + 1)) by rw [htake]) hc2 hc]
        · have hge2 : recs.length ≤ i + countE (ts.take j) := by
            rw [htake] at hge; exact hge
          simpa using (H.2 hEt).2 hge2

/-- Line-level attribution: from a cursor `i ≤ N`, line `k`'s rewrite
uses the records starting at `cursorAt lines recs i k`, one per E-token
in token order. -/
theorem write_gcodeFrom_attrib (lines : List (List Char))
    (recs : List MotionRecord) :
    ∀ (i : ℕ), i ≤ recs.length → ∀ (k : ℕ) (l : List Char), lines[k]? = some l →
      (containsG1 l = false → (write_gcodeFrom lines recs i)[k]? = some l) ∧
      (containsG1 l = true →
        ∃ toks, (write_gcodeFrom lines recs i)[k]? = some (joinSpace toks) ∧
          toks.length = (splitWs l).length ∧
          ∀ (j : ℕ) (t : List Char), (splitWs l)[j]? = some t →
            (startsC 'E' t = false → toks[j]? = some t) ∧
            (startsC 'E' t = true →
              (∀ (hc : cursorAt lines recs i k + countE ((splitWs l).take j) <
                  recs.length),
                toks[j]? = some ('E' :: format5
                  ((recs.get ⟨cursorAt lines recs i k + countE ((splitWs l).take j),
                    hc⟩).deposition))) ∧
              (recs.length ≤ cursorAt lines recs i k + countE ((splitWs l).take j) →
                toks[j]? = some t))) := by
  induction lines with
  | nil => intro i hi k l hk; simp at hk
  | cons a rest ih =>
    intro i hi k l hk
    cases k with
    | zero =>
      simp at hk
      subst hk
      rw [cursorAt_zero]
      by_cases hG : containsG1 a = true
      · rw [write_gcodeFrom_cons_G1 a rest recs i hG]
        refine ⟨fun hf => absurd hG (by simp [hf]), fun _ => ?_⟩
        exact ⟨(rewriteParts (splitWs a) recs i).1, by simp,
          (rewriteParts_token_rel recs (splitWs a) i).length_eq.symm,
          fun j t hjt => rewriteParts_attrib (splitWs a) recs i j t hjt⟩
      · have hG2 : containsG1 a = false := by simpa using hG
        rw [write_gcodeFrom_cons_nG1 a rest recs i hG2]
        exact ⟨fun _ => by simp, fun hf => absurd hf (by simp [hG2])⟩
    | succ k =>
      simp at hk
      rw [cursorAt_succ_cons]
      by_cases hG : containsG1 a = true
      · have hcur : cursorAfterLine recs a i = (rewriteParts (splitWs a) recs i).2 := by
          rw [cursorAfterLine, if_pos hG, ← rewriteParts_cursor_min (splitWs a) recs i hi]
        have hi2 : (rewriteParts (splitWs a) recs i).2 ≤ recs.length := by
          rw [rewriteParts_cursor_min (splitWs a) recs i hi]; omega
        rw [write_gcodeFrom_cons_G1 a rest recs i hG, hcur]
        have H := ih ((rewriteParts (splitWs a) recs i).2) hi2 k l hk
        simp only [List.getElem?_cons_succ]
        exact H
      · have hG2 : containsG1 a = false := by simpa using hG
        have hcur : cursorAfterLine recs a i = i := by
          rw [cursorAfterLine, if_neg (by simp [hG2])]
        rw [write_gcodeFrom_cons_nG1 a rest recs i hG2, hcur]
        have H := ih i hi k l hk
        simp only [List.getElem?_cons_succ]
        exact H

/-- Claim C1 (amended): the output has as many lines as the input; every
line without the `G1` tag is emitted byte-identical; a tagged line is
re-emitted as its whitespace tokens joined by single spaces (so
inter-token whitespace is normalised), where every token not starting
with `'E'` is unchanged and the token at position `j` starting with `'E'`
is replaced by `'E'` followed by the corresponding record's deposition
formatted to 5 decimal places — the record at index
`cursorAt lines recs 0 k + countE (take j)`, i.e. the cursor entering
line `k` plus the number of deposition tokens before `j` on that line —
or kept unchanged once that index reaches the end of the records. -/
theorem write_gcode_token_fidelity (lines : List (List Char))
    (recs : List MotionRecord) :
    (write_gcode lines recs).length = lines.length ∧
    ∀ (k : ℕ) (l : List Char), lines[k]? = some l →
      (containsG1 l = false → (write_gcode lines recs)[k]? = some l) ∧
      (containsG1 l = true →
        ∃ toks, (write_gcode lines recs)[k]? = some (joinSpace toks) ∧
          toks.length = (splitWs l).length ∧
          ∀ (j : ℕ) (t : List Char), (splitWs l)[j]? = some t →
            (startsC 'E' t = false → toks[j]? = some t) ∧
            (startsC 'E' t = true →
              (∀ (hc : cursorAt lines recs 0 k + countE ((splitWs l).take j) <
                  recs.length),
                toks[j]? = some ('E' :: format5
                  ((recs.get ⟨cursorAt lines recs 0 k + countE ((splitWs l).take j),
                    hc⟩).deposition))) ∧
              (recs.length ≤ cursorAt lines recs 0 k + countE ((splitWs l).take j) →
                toks[j]? = some t))) :=
  ⟨(write_gcodeFrom_rel recs lines 0).length_eq.symm,
    write_gcodeFrom_attrib lines recs 0 (Nat.zero_le _)⟩

/-- Instantiation of C1 (amended) exercising the attribution: on the
tagged line `"G1 E5 E6"` (line 1, cursor 0 entering it) the first E-token
receives record 0's deposition `1` and the second receives record 1's
deposition `2`, in cursor order. -/
theorem write_gcode_token_fidelity_witness :
    (write_gcode [("M1").toList, ("G1 E5 E6").toList]
      [⟨0, 0, 1⟩, ⟨0, 0, 2⟩]).length = 2 ∧
    ∃ toks,
      (write_gcode [("M1").toList, ("G1 E5 E6").toList]
          [⟨0, 0, 1⟩, ⟨0, 0, 2⟩])[1]? = some (joinSpace toks) ∧
      toks[1]? = some ('E' :: format5 1) ∧
      toks[2]? = some ('E' :: format5 2) := by
  have h := write_gcode_token_fidelity [("M1").toList, ("G1 E5 E6").toList]
    [⟨0, 0, 1⟩, ⟨0, 0, 2⟩]
  refine ⟨h.1.trans (by decide), ?_⟩
  obtain ⟨toks, he, hlen, htok⟩ :=
    (h.2 1 (("G1 E5 E6").toList) (by decide)).2 (by decide)
  refine ⟨toks, he, ?_, ?_⟩
  · have e := ((htok 1 (("E5").toList) (by decide)).2 (by decide)).1 (by decide)
    rw [e]
    decide
  · have e := ((htok 2 (("E6").toList) (by decide)).2 (by decide)).1 (by decide)
    rw [e]
    decide

/-- Claim C1 as stated is false: a tagged line is not content-identical to
the original outside the deposition token, because the rewriter strips the
line and re-joins its tokens with single spaces.  On the line
`"G1  E1.5"` (two spaces) the output collapses the double space, whereas
the claim requires the original line with only the `E` token replaced. -/
theorem write_gcode_whitespace_counterexample :
    write_gcode [("G1  E1.5").toList] [⟨0, 0, 3⟩] = [("G1 E3.00000").toList] ∧
    ("G1 E3.00000").toList ≠ ("G1  E3.00000").toList := by
  exact ⟨by decide, by decide⟩

theorem rewriteParts_exhausted (toks : List (List Char))
    (recs : List MotionRecord) (i : ℕ) (h : recs.length ≤ i) :
    rewriteParts toks recs i = (toks, i) := by
  induction toks with
  | nil => simp [rewriteParts]
  | cons t ts ih =>
    have hb : ¬ i < recs.length := by omega
    by_cases hE : startsC 'E' t = true
    · rw [rewriteParts_cons_E_ge t ts recs i hE hb, ih]
    · have hE2 : startsC 'E' t = false := by simpa using hE
      rw [rewriteParts_cons_nE t ts recs i hE2, ih]

theorem write_gcodeFrom_exhausted (lines : List (List Char))
    (recs : List MotionRecord) (i : ℕ) (h : recs.length ≤ i) :
    write_gcodeFrom lines recs i =
      lines.map (fun l => if containsG1 l then joinSpace (splitWs l) else l) := by
  induction lines with
  | nil => simp [write_gcodeFrom]
  | cons l rest ih =>
    by_cases hG : containsG1 l = true
    · rw [write_gcodeFrom_cons_G1 l rest recs i hG, rewriteParts_exhausted _ _ _ h]
      simp [hG, ih]
    · have hG2 : containsG1 l = false := by simpa using hG
      rw [write_gcodeFrom_cons_nG1 l rest recs i hG2]
      simp [hG2, ih]

/-- Claim C6: once the cursor has reached the end of the record sequence,
every further deposition token is emitted unmodified, the cursor stays
put, and the rewrite still emits one output line per remaining input line
(tagged lines merely re-joined from their unchanged tokens). -/
theorem write_gcode_record_exhaustion (toks lines : List (List Char))
    (recs : List MotionRecord) (i : ℕ) (h : recs.length ≤ i) :
    rewriteParts toks recs i = (toks, i) ∧
    write_gcodeFrom lines recs i =
      lines.map (fun l => if containsG1 l then joinSpace (splitWs l) else l) :=
  ⟨rewriteParts_exhausted toks recs i h, write_gcodeFrom_exhausted lines recs i h⟩

/-- Instantiation of C6 on an input with more tagged deposition-bearing
lines than records: the second tagged line's `E` token survives
unmodified and a full two-line output is produced. -/
theorem write_gcode_record_exhaustion_witness :
    rewriteParts [("E1.5").toList] [] 0 = ([("E1.5").toList], 0) ∧
    write_gcodeFrom [("G1 E1.5").toList, ("M2").toList] [] 0 =
      [("G1 E1.5").toList, ("M2").toList].map
        (fun l => if containsG1 l then joinSpace (splitWs l) else l) :=
  write_gcode_record_exhaustion [("E1.5").toList]
    [("G1 E1.5").toList, ("M2").toList] [] 0 (by decide)

theorem rewriteParts_inbounds (toks : List (List Char))
    (recs : List MotionRecord) (i : ℕ) (h : i + countE toks ≤ recs.length) :
    List.Forall₂ (fun t o =>
      (startsC 'E' t = true → ∃ g ∈ recs, o = 'E' :: format5 g.deposition) ∧
      (startsC 'E' t = false → o = t)) toks (rewriteParts toks recs i).1 := by
  induction toks generalizing i with
  | nil => simp [rewriteParts]
  | cons t ts ih =>
    by_cases hE : startsC 'E' t = true
    · have hc := countE_cons_E t ts hE
      have hb : i < recs.length := by omega
      rw [rewriteParts_cons_E_lt t ts recs i hE hb]
      refine List.Forall₂.cons ⟨fun _ => ?_, fun hf => ?_⟩ (ih (i + 1) (by omega))
      · exact ⟨recs.get ⟨i, hb⟩, recs.get_mem _ _, rfl⟩
      · rw [hE] at hf; exact absurd hf (by simp)
    · have hE2 : startsC 'E' t = false := by simpa using hE
      have hc := countE_cons_nE t ts hE2
      rw [rewriteParts_cons_nE t ts recs i hE2]
      exact List.Forall₂.cons ⟨fun hf => absurd hf (by simp [hE2]), fun _ => rfl⟩
        (ih i (by omega))

/-- Claim C10: on a tagged line the cursor advances once per token that
starts with the deposition marker (never beyond the end of the record
sequence, never backwards): from cursor `i ≤ N` the token pass ends at
`min (i + k) N` where `k` counts the `E`-tokens, so a line with no
`E`-token consumes nothing; and while records remain, every `E`-token is
replaced by a formatted record value. -/
theorem rewrite_cursor_invariant (toks : List (List Char))
    (recs : List MotionRecord) (i : ℕ) (h : i ≤ recs.length) :
    i ≤ (rewriteParts toks recs i).2 ∧
    (rewriteParts toks recs i).2 ≤ recs.length ∧
    (rewriteParts toks recs i).2 = min (i + countE toks) recs.length ∧
    (countE toks = 0 → (rewriteParts toks recs i).2 = i) ∧
    (i + countE toks ≤ recs.length →
      List.Forall₂ (fun t o =>
        (startsC 'E' t = true → ∃ g ∈ recs, o = 'E' :: format5 g.deposition) ∧
        (startsC 'E' t = false → o = t)) toks (rewriteParts toks recs i).1) := by
  have hm := rewriteParts_cursor_min toks recs i h
  refine ⟨by omega, by omega, hm, fun h0 => by omega, rewriteParts_inbounds toks recs i⟩

/-- Instantiation of C10: a line with two `E`-tokens consumes two of the
three records (cursor `0 → 2`), both tokens replaced. -/
theorem rewrite_cursor_invariant_witness :
    (rewriteParts [("E1").toList, ("X2").toList, ("E3").toList]
      [⟨0, 0, 1⟩, ⟨0, 0, 2⟩, ⟨0, 0, 3⟩] 0).2 =
      min (0 + countE [("E1").toList, ("X2").toList, ("E3").toList]) 3 :=
  (rewrite_cursor_invariant [("E1").toList, ("X2").toList, ("E3").toList]
    [⟨0, 0, 1⟩, ⟨0, 0, 2⟩, ⟨0, 0, 3⟩] 0 (by decide)).2.2.1

/-! ## Record extractor -/

theorem startsC_unique {m1 m2 : Char} (hne : m1 ≠ m2) {t : List Char}
    (h : startsC m1 t = true) : startsC m2 t = false := by
  cases t with
  | nil => simp [startsC] at h
  | cons c cs =>
    simp [startsC] at h ⊢
    subst h
    exact fun hc => hne hc

theorem scanTokens_err (toks : List (List Char)) (x y e : Option ℚ)
    (t : List Char) (ht : t ∈ toks)
    (hm : startsC 'X' t = true ∨ startsC 'Y' t = true ∨ startsC 'E' t = true)
    (hp : parseFloat (t.tail) = none) :
    scanTokens toks x y e = .error () := by
  induction toks generalizing x y e with
  | nil => cases ht
  | cons a ts ih =>
    rcases List.mem_cons.mp ht with rfl | hmem
    · rcases hm with hX | hY | hE
      · simp [scanTokens, hX, hp]
      · simp [scanTokens, startsC_unique (by decide : ('Y' : Char) ≠ 'X') hY, hY, hp]
      · simp [scanTokens, startsC_unique (by decide : ('E' : Char) ≠ 'X') hE,
          startsC_unique (by decide : ('E' : Char) ≠ 'Y') hE, hE, hp]
    · by_cases hX : startsC 'X' a = true
      · cases hpa : parseFloat (a.tail) with
        | none => simp [scanTokens, hX, hpa]
        | some v => simp [scanTokens, hX, hpa, ih _ _ _ hmem]
      · by_cases hY : startsC 'Y' a = true
        · cases hpa : parseFloat (a.tail) with
          | none => simp [scanTokens, hX, hY, hpa]
          | some v => simp [scanTokens, hX, hY, hpa, ih _ _ _ hmem]
        · by_cases hE : startsC 'E' a = true
          · cases hpa : parseFloat (a.tail) with
            | none => simp [scanTokens, hX, hY, hE, hpa]
            | some v => simp [scanTokens, hX, hY, hE, hpa, ih _ _ _ hmem]
          · simp [scanTokens, hX, hY, hE, ih _ _ _ hmem]

theorem parseLine_err (l : List Char) (hG : containsG1 l = true)
    (t : List Char) (ht : t ∈ splitWs l)
    (hm : startsC 'X' t = true ∨ startsC 'Y' t = true ∨ startsC 'E' t = true)
    (hp : parseFloat (t.tail) = none) :
    parseLine l = .error () := by
  rw [parseLine, if_pos hG, scanTokens_err (splitWs l) none none none t ht hm hp]

theorem parse_gcode_err_of_mem (lines : List (List Char)) (l : List Char)
    (hl : l ∈ lines) (he : parseLine l = .error ()) :
    parse_gcode lines = .error () := by
  induction lines with
  | nil => cases hl
  | cons a rest ih =>
    rcases List.mem_cons.mp hl with rfl | hmem
    · simp [parse_gcode, he]
    · cases hpa : parseLine a with
      | error e2 => simp [parse_gcode, hpa]
      | ok o => cases o <;> simp [parse_gcode, hpa, ih hmem]

/-- Claim C7: a tagged line containing a token that starts with one of the
three markers but whose remainder does not parse makes the whole
extraction abort with an error: no record sequence is produced (and hence
nothing is available to write). -/
theorem parse_gcode_malformed_fatal (lines : List (List Char)) (l t : List Char)
    (hl : l ∈ lines) (hG : containsG1 l = true) (ht : t ∈ splitWs l)
    (hm : startsC 'X' t = true ∨ startsC 'Y' t = true ∨ startsC 'E' t = true)
    (hp : parseFloat (t.tail) = none) :
    parse_gcode lines = .error () :=
  parse_gcode_err_of_mem lines l hl (parseLine_err l hG t ht hm hp)

/-- Instantiation of C7: the malformed token `Yq` aborts the extraction of
a two-line file whose other line is well-formed. -/
theorem parse_gcode_malformed_fatal_witness :
    parse_gcode [("G1 X1 Y2 E3").toList, ("G1 X1 Yq E2").toList] = .error () :=
  parse_gcode_malformed_fatal [("G1 X1 Y2 E3").toList, ("G1 X1 Yq E2").toList]
    (("G1 X1 Yq E2").toList) (("Yq").toList) (by decide) (by decide) (by decide)
    (Or.inr (Or.inl (by decide))) (by decide)

theorem scanTokens_noerr_parse (toks : List (List Char)) (x y e : Option ℚ)
    (st : Option ℚ × Option ℚ × Option ℚ) (h : scanTokens toks x y e = .ok st)
    (t : List Char) (ht : t ∈ toks)
    (hm : startsC 'X' t = true ∨ startsC 'Y' t = true ∨ startsC 'E' t = true) :
    (parseFloat t.tail).isSome = true := by
  cases hp : parseFloat t.tail with
  | none =>
    rw [scanTokens_err toks x y e t ht hm hp] at h
    exact absurd h (by simp)
  | some v => rfl

theorem scanTokens_some_iff (toks : List (List Char)) (x0 y0 e0 : Option ℚ)
    (x y e : Option ℚ) (h : scanTokens toks x0 y0 e0 = .ok (x, y, e)) :
    x.isSome = (x0.isSome || toks.any (fun t => startsC 'X' t)) ∧
    y.isSome = (y0.isSome || toks.any (fun t => startsC 'Y' t)) ∧
    e.isSome = (e0.isSome || toks.any (fun t => startsC 'E' t)) := by
  induction toks generalizing x0 y0 e0 with
  | nil =>
    simp [scanTokens] at h
    obtain ⟨rfl, rfl, rfl⟩ := h
    simp
  | cons a ts ih =>
    by_cases hX : startsC 'X' a = true
    · cases hpa : parseFloat a.tail with
      | none => rw [scanTokens_err (a :: ts) x0 y0 e0 a (by simp) (Or.inl hX) hpa] at h; exact absurd h (by simp)
      | some v =>
        simp only [scanTokens, hX, if_true, hpa] at h
        obtain ⟨h1, h2, h3⟩ := ih (some v) y0 e0 h
        have hnY : startsC 'Y' a = false := startsC_unique (by decide : ('X' : Char) ≠ 'Y') hX
        have hnE : startsC 'E' a = false := startsC_unique (by decide : ('X' : Char) ≠ 'E') hX
        refine ⟨by simp [h1, hX], by simp [h2, hnY], by simp [h3, hnE]⟩
    · by_cases hY : startsC 'Y' a = true
      · cases hpa : parseFloat a.tail with
        | none => rw [scanTokens_err (a :: ts) x0 y0 e0 a (by simp) (Or.inr (Or.inl hY)) hpa] at h; exact absurd h (by simp)
        | some v =>
          simp only [scanTokens, hX, hY, if_true, if_false, hpa] at h
          obtain ⟨h1, h2, h3⟩ := ih x0 (some v) e0 h
          have hnE : startsC 'E' a = false := startsC_unique (by decide : ('Y' : Char) ≠ 'E') hY
          refine ⟨by simp [h1, hX], by simp [h2, hY], by simp [h3, hnE]⟩
      · by_cases hE : startsC 'E' a = true
        · cases hpa : parseFloat a.tail with
          | none => rw [scanTokens_err (a :: ts) x0 y0 e0 a (by simp) (Or.inr (Or.inr hE)) hpa] at h; exact absurd h (by simp)
          | some v =>
            simp only [scanTokens, hX, hY, hE, if_true, if_false, hpa] at h
            obtain ⟨h1, h2, h3⟩ := ih x0 y0 (some v) h
            refine ⟨by simp [h1, hX], by simp [h2, hY], by simp [h3, hE]⟩
        · simp only [scanTokens, hX, hY, hE, if_false] at h
          obtain ⟨h1, h2, h3⟩ := ih x0 y0 e0 h
          refine ⟨by simp [h1, hX], by simp [h2, hY], by simp [h3, hE]⟩

theorem any_parsed_eq_any (toks : List (List Char)) (m : Char)
    (hall : ∀ t ∈ toks, startsC m t = true → (parseFloat t.tail).isSome = true) :
    toks.any (fun t => startsC m t && (parseFloat t.tail).isSome) =
      toks.any (fun t => startsC m t) := by
  induction toks with
  | nil => rfl
  | cons a ts ih =>
    have ihs := ih (fun t ht => hall t (List.mem_cons_of_mem a ht))
    by_cases hm : startsC m a = true
    · simp [hm, hall a (by simp) hm, ihs]
    · simp [hm, ihs]

theorem parse_gcode_cons_ok (l : List Char) (rest : List (List Char))
    (rs : List MotionRecord) (h : parse_gcode (l :: rest) = .ok rs) :
    ∃ o rs2, parseLine l = .ok o ∧ parse_gcode rest = .ok rs2 ∧
      rs = (match o with | some g => g :: rs2 | none => rs2) := by
  cases hpa : parseLine l with
  | error e2 => simp [parse_gcode, hpa] at h
  | ok o =>
    cases hpr : parse_gcode rest with
    | error e2 => cases o <;> simp [parse_gcode, hpa, hpr] at h
    | ok rs2 =>
      cases o with
      | none =>
        simp [parse_gcode, hpa, hpr] at h
        exact ⟨none, rs2, rfl, rfl, h.symm⟩
      | some g =>
        simp [parse_gcode, hpa, hpr] at h
        exact ⟨some g, rs2, rfl, rfl, h.symm⟩

theorem parse_gcode_ok_flat (lines : List (List Char)) (rs : List MotionRecord)
    (h : parse_gcode lines = .ok rs) : rs = extractedRecords lines := by
  induction lines generalizing rs with
  | nil =>
    simp [parse_gcode] at h
    simp [extractedRecords, ← h]
  | cons l rest ih =>
    obtain ⟨o, rs2, hpa, hpr, hrs⟩ := parse_gcode_cons_ok l rest rs h
    subst hrs
    cases o with
    | none => simp [extractedRecords, lineRecords, hpa, ih rs2 hpr]
    | some g => simp [extractedRecords, lineRecords, hpa, ih rs2 hpr]

theorem parse_gcode_ok_line (lines : List (List Char)) (rs : List MotionRecord)
    (h : parse_gcode lines = .ok rs) (l : List Char) (hl : l ∈ lines) :
    ∃ o, parseLine l = .ok o := by
  induction lines generalizing rs with
  | nil => cases hl
  | cons a rest ih =>
    obtain ⟨o, rs2, hpa, hpr, hrs⟩ := parse_gcode_cons_ok a rest rs h
    rcases List.mem_cons.mp hl with rfl | hmem
    · exact ⟨o, hpa⟩
    · exact ih rs2 hpr hmem

theorem parseLine_some_iff (l : List Char) (o : Option MotionRecord)
    (h : parseLine l = .ok o) : o.isSome = lineQualifies l := by
  by_cases hG : containsG1 l = true
  · cases hs : scanTokens (splitWs l) none none none with
    | error e2 => rw [parseLine, if_pos hG, hs] at h; exact absurd h (by simp)
    | ok st =>
      obtain ⟨x, y, e⟩ := st
      have hiff := scanTokens_some_iff (splitWs l) none none none x y e hs
      have hax : hasParsedTok 'X' l = (splitWs l).any (fun t => startsC 'X' t) :=
        any_parsed_eq_any (splitWs l) 'X'
          (fun t ht hm => scanTokens_noerr_parse _ _ _ _ _ hs t ht (Or.inl hm))
      have hay : hasParsedTok 'Y' l = (splitWs l).any (fun t => startsC 'Y' t) :=
        any_parsed_eq_any (splitWs l) 'Y'
          (fun t ht hm => scanTokens_noerr_parse _ _ _ _ _ hs t ht (Or.inr (Or.inl hm)))
      have hae : hasParsedTok 'E' l = (splitWs l).any (fun t => startsC 'E' t) :=
        any_parsed_eq_any (splitWs l) 'E'
          (fun t ht hm => scanTokens_noerr_parse _ _ _ _ _ hs t ht (Or.inr (Or.inr hm)))
      rw [lineQualifies, hax, hay, hae, hG]
      obtain ⟨hx, hy, he⟩ := hiff
      simp only [Option.isSome_none, Option.isSome_some, Bool.false_or] at hx hy he
      cases x <;> cases y <;> cases e <;>
        (rw [parseLine, if_pos hG, hs] at h) <;>
        (simp at h; subst h; rw [← hx, ← hy, ← he]; simp)
  · have hG2 : containsG1 l = false := by simpa using hG
    rw [parseLine, if_neg (by simp [hG2])] at h
    simp at h
    subst h
    simp [lineQualifies, hG2]

/-- Claim C3: in a successful extraction the record sequence is exactly
the per-line records concatenated in source order, and a line contributes
exactly one record if and only if it contains the tag and carries parsing
`X`, `Y` and deposition tokens (otherwise it contributes zero records and
is silently skipped). -/
theorem parse_gcode_selectivity (lines : List (List Char)) (rs : List MotionRecord)
    (h : parse_gcode lines = .ok rs) :
    rs = extractedRecords lines ∧
    ∀ l ∈ lines, (lineRecords l).length = if lineQualifies l = true then 1 else 0 := by
  refine ⟨parse_gcode_ok_flat lines rs h, fun l hl => ?_⟩
  obtain ⟨o, ho⟩ := parse_gcode_ok_line lines rs h l hl
  have hq := parseLine_some_iff l o ho
  cases o with
  | some g => simp [lineRecords, ho, ← hq]
  | none => simp [lineRecords, ho, ← hq]

/-- Instantiation of C3 on a three-line file: the qualifying first line
contributes its record, the untagged second line and the tagged line
missing a `Y` token contribute nothing, in order. -/
theorem parse_gcode_selectivity_witness :
    [(⟨1, 2, 3⟩ : MotionRecord)] =
      extractedRecords [("G1 X1 Y2 E3").toList, ("hello").toList, ("G1 X1 E3").toList] ∧
    (lineRecords (("G1 X1 E3").toList)).length =
      if lineQualifies (("G1 X1 E3").toList) = true then 1 else 0 := by
  have h := parse_gcode_selectivity
    [("G1 X1 Y2 E3").toList, ("hello").toList, ("G1 X1 E3").toList] [⟨1, 2, 3⟩]
    (by decide)
  exact ⟨h.1, h.2 (("G1 X1 E3").toList) (by decide)⟩

/-! ## Selection session -/

/-- Claim C2 (amended): a confirmation whose ratio text fails to parse
mutates nothing — records, both operation logs and the pending region are
unchanged — but it still deactivates the confirm control (the script
disables the button before validating the input), so the session is left
`Idle` rather than `RegionPending`: the operator must draw a new region
to retry. -/
theorem confirm_selection_invalid_noop (s : Session) (t : List Char)
    (h : parseFloat t = none) :
    (confirm_selection s t).gcode_data = s.gcode_data ∧
    (confirm_selection s t).selected_areas = s.selected_areas ∧
    (confirm_selection s t).extrusion_multipliers = s.extrusion_multipliers ∧
    (confirm_selection s t).pending = s.pending ∧
    sessionState (confirm_selection s t) = SessState.Idle := by
  simp [confirm_selection, h, sessionState]

/-- Instantiation of C2 (amended) at the non-numeric input `"abc"`. -/
theorem confirm_selection_invalid_noop_witness :
    (confirm_selection ⟨[⟨1, 1, 1⟩], [], [], some ((0, 5), (0, 5)), true⟩
        (("abc").toList)).gcode_data = [⟨1, 1, 1⟩] ∧
    sessionState (confirm_selection ⟨[⟨1, 1, 1⟩], [], [], some ((0, 5), (0, 5)), true⟩
        (("abc").toList)) = SessState.Idle := by
  have h := confirm_selection_invalid_noop
    ⟨[⟨1, 1, 1⟩], [], [], some ((0, 5), (0, 5)), true⟩ (("abc").toList) (by decide)
  exact ⟨h.1, h.2.2.2.2⟩

/-- Claim C2 as stated is false in its state clause: after a rejected
ratio the session is `Idle`, not `RegionPending` — the confirm button was
disabled before validation and only a new selection re-enables it, so a
retried confirmation (valid ratio `2.0`) is ignored and the record is
never multiplied. -/
theorem confirm_selection_idle_counterexample :
    sessionState (confirmClick
      (on_select ⟨[⟨1, 1, 1⟩], [], [], none, false⟩ (0, 0) (5, 5))
      (("abc").toList)) = SessState.Idle ∧
    confirmClick (confirmClick
        (on_select ⟨[⟨1, 1, 1⟩], [], [], none, false⟩ (0, 0) (5, 5))
        (("abc").toList)) (("2.0").toList) =
      confirmClick (on_select ⟨[⟨1, 1, 1⟩], [], [], none, false⟩ (0, 0) (5, 5))
        (("abc").toList) := by
  exact ⟨by decide, by decide⟩

/-! ## Ratio-1 round trip -/

theorem adjust_ratio_one_id (rs : List MotionRecord) (xr yr : ℚ × ℚ)
    (h : ∀ g ∈ rs, inRegion xr yr g = true) :
    adjust_extrusion rs xr yr 1 = rs := by
  induction rs with
  | nil => rfl
  | cons a l ih =>
    have ha : inRegion xr yr a = true := h a (by simp)
    have hl := ih (fun g hg => h g (List.mem_cons_of_mem a hg))
    have hd : qmul a.deposition 1 = a.deposition := by rw [qmul_eq, mul_one]
    simp only [adjust_extrusion, List.map_cons, ha, if_true, hd] at *
    rw [hl]

theorem countE_zero_all (toks : List (List Char)) (h : countE toks = 0) :
    ∀ t ∈ toks, startsC 'E' t = false := by
  intro t ht
  by_cases hE : startsC 'E' t = true
  · exfalso
    have : t ∈ toks.filter (fun t => startsC 'E' t) := List.mem_filter.mpr ⟨ht, hE⟩
    have := List.length_pos.mpr (List.ne_nil_of_mem this)
    rw [countE] at h
    omega
  · simpa using hE

theorem countE_zero_rewrite (toks : List (List Char)) (recs : List MotionRecord)
    (i : ℕ) (h : countE toks = 0) : rewriteParts toks recs i = (toks, i) := by
  induction toks with
  | nil => simp [rewriteParts]
  | cons t ts ih =>
    have hE := countE_zero_all (t :: ts) h t (by simp)
    rw [rewriteParts_cons_nE t ts recs i hE, ih (by rw [← countE_cons_nE t ts hE]; exact h)]

theorem map_nonE_id (v : ℚ) (ts : List (List Char))
    (h : ∀ t ∈ ts, startsC 'E' t = false) :
    ts.map (fun t => if startsC 'E' t then 'E' :: format5 v else t) = ts := by
  induction ts with
  | nil => rfl
  | cons a l ih =>
    simp only [List.map_cons, h a (by simp), if_false]
    rw [ih (fun t ht => h t (List.mem_cons_of_mem a ht))]
    simp [h a (by simp)]

theorem rewriteParts_one_E (toks : List (List Char)) (recs : List MotionRecord)
    (i : ℕ) (v : ℚ) (hb : i < recs.length)
    (hv : (recs.get ⟨i, hb⟩).deposition = v) (h1 : countE toks = 1) :
    rewriteParts toks recs i =
      (toks.map (fun t => if startsC 'E' t then 'E' :: format5 v else t), i + 1) := by
  induction toks with
  | nil => simp [countE] at h1
  | cons t ts ih =>
    by_cases hE : startsC 'E' t = true
    · have h0 : countE ts = 0 := by have := countE_cons_E t ts hE; omega
      rw [rewriteParts_cons_E_lt t ts recs i hE hb,
        countE_zero_rewrite ts recs (i + 1) h0]
      simp only [List.map_cons, hE, if_true]
      rw [map_nonE_id v ts (countE_zero_all ts h0), hv]
    · have hE2 : startsC 'E' t = false := by simpa using hE
      have h1ts : countE ts = 1 := by rw [← countE_cons_nE t ts hE2]; exact h1
      rw [rewriteParts_cons_nE t ts recs i hE2, ih h1ts]
      simp [hE2]

theorem scanTokens_e_frozen (toks : List (List Char)) (x y e : Option ℚ)
    (x2 y2 e2 : Option ℚ) (h0 : countE toks = 0)
    (h : scanTokens toks x y e = .ok (x2, y2, e2)) : e2 = e := by
  induction toks generalizing x y e with
  | nil => simp [scanTokens] at h; exact h.2.2.symm
  | cons a ts ih =>
    have haE : startsC 'E' a = false := countE_zero_all (a :: ts) h0 a (by simp)
    have h0ts : countE ts = 0 := by rw [← countE_cons_nE a ts haE]; exact h0
    by_cases hX : startsC 'X' a = true
    · cases hpa : parseFloat a.tail with
      | none => simp [scanTokens, hX, hpa] at h
      | some v =>
        simp only [scanTokens, hX, if_true, hpa] at h
        exact ih _ _ _ h0ts h
    · by_cases hY : startsC 'Y' a = true
      · cases hpa : parseFloat a.tail with
        | none => simp [scanTokens, hX, hY, hpa] at h
        | some v =>
          simp only [scanTokens, hX, hY, if_true, if_false, hpa] at h
          exact ih _ _ _ h0ts h
      · simp only [scanTokens, hX, hY, haE, if_false] at h
        exact ih _ _ _ h0ts h

theorem scanTokens_single_E (toks : List (List Char)) (x0 y0 e0 : Option ℚ)
    (x2 y2 : Option ℚ) (v : ℚ)
    (h : scanTokens toks x0 y0 e0 = .ok (x2, y2, some v)) (h1 : countE toks = 1)
    (t : List Char) (ht : t ∈ toks) (hE : startsC 'E' t = true) :
    parseFloat t.tail = some v := by
  induction toks generalizing x0 y0 e0 with
  | nil => cases ht
  | cons a ts ih =>
    by_cases haE : startsC 'E' a = true
    · have h0 : countE ts = 0 := by have := countE_cons_E a ts haE; omega
      have hnX : startsC 'X' a = false :=
        startsC_unique (by decide : ('E' : Char) ≠ 'X') haE
      have hnY : startsC 'Y' a = false :=
        startsC_unique (by decide : ('E' : Char) ≠ 'Y') haE
      cases hpa : parseFloat a.tail with
      | none => simp [scanTokens, hnX, hnY, haE, hpa] at h
      | some w =>
        simp only [scanTokens, hnX, hnY, haE, if_true, if_false, hpa] at h
        have hw : some v = some w := scanTokens_e_frozen ts x0 y0 (some w) x2 y2 (some v) h0 h
        rcases List.mem_cons.mp ht with rfl | hmem
        · rw [hpa, ← hw]
        · exact absurd hE (by simp [countE_zero_all ts h0 t hmem])
    · have haE2 : startsC 'E' a = false := by simpa using haE
      have h1ts : countE ts = 1 := by rw [← countE_cons_nE a ts haE2]; exact h1
      have hmem : t ∈ ts := by
        rcases List.mem_cons.mp ht with rfl | hmem
        · exact absurd hE (by simp [haE2])
        · exact hmem
      by_cases hX : startsC 'X' a = true
      · cases hpa : parseFloat a.tail with
        | none => simp [scanTokens, hX, hpa] at h
        | some w =>
          simp only [scanTokens, hX, if_true, hpa] at h
          exact ih _ _ _ h h1ts hmem
      · by_cases hY : startsC 'Y' a = true
        · cases hpa : parseFloat a.tail with
          | none => simp [scanTokens, hX, hY, hpa] at h
          | some w =>
            simp only [scanTokens, hX, hY, if_true, if_false, hpa] at h
            exact ih _ _ _ h h1ts hmem
        · simp only [scanTokens, hX, hY, haE2, if_false] at h
          exact ih _ _ _ h h1ts hmem

theorem parseLine_some_scan (l : List Char) (g : MotionRecord)
    (h : parseLine l = .ok (some g)) :
    containsG1 l = true ∧
    scanTokens (splitWs l) none none none = .ok (some g.x, some g.y, some g.deposition) := by
  by_cases hG : containsG1 l = true
  · refine ⟨hG, ?_⟩
    cases hs : scanTokens (splitWs l) none none none with
    | error e2 => rw [parseLine, if_pos hG, hs] at h; exact absurd h (by simp)
    | ok st =>
      obtain ⟨x, y, e⟩ := st
      cases x <;> cases y <;> cases e <;>
          (rw [parseLine, if_pos hG, hs] at h; simp at h)
      rw [← h]
  · rw [parseLine, if_neg (by simp [hG])] at h
    exact absurd h (by simp)

theorem get_append_cons (pre : List MotionRecord) (g : MotionRecord)
    (rs2 : List MotionRecord) (hb : pre.length < (pre ++ g :: rs2).length) :
    (pre ++ g :: rs2).get ⟨pre.length, hb⟩ = g := by
  induction pre with
  | nil => rfl
  | cons a p ih => simpa using ih (by simp)

theorem write_roundtrip_aux (lines : List (List Char)) (pre rs : List MotionRecord)
    (hp : parse_gcode lines = .ok rs) (ha : aligned lines) :
    write_gcodeFrom lines (pre ++ rs) pre.length = roundtripExpected lines := by
  induction lines generalizing pre rs with
  | nil => simp [write_gcodeFrom, roundtripExpected]
  | cons l rest ih =>
    obtain ⟨o, rs2, hpa, hpr, hrs⟩ := parse_gcode_cons_ok l rest rs hp
    have harest : aligned rest := fun l2 h2 h3 => ha l2 (List.mem_cons_of_mem _ h2) h3
    by_cases hG : containsG1 l = true
    · have hcnt := ha l (by simp) hG
      cases o with
      | none =>
        have h0 : countE (splitWs l) = 0 := by
          simpa [lineRecords, hpa] using hcnt
        have hrs2 : rs = rs2 := by simpa using hrs
        rw [hrs2, write_gcodeFrom_cons_G1 l rest _ _ hG,
          countE_zero_rewrite (splitWs l) (pre ++ rs2) pre.length h0,
          ih pre rs2 hpr harest]
        have hmap : (splitWs l).map etokFormat = splitWs l := by
          have hall := countE_zero_all (splitWs l) h0
          calc (splitWs l).map etokFormat
              = (splitWs l).map id := by
                apply List.map_congr_left
                intro t ht
                simp [etokFormat, hall t ht]
            _ = splitWs l := List.map_id _
        simp [roundtripExpected, hG, hmap]
      | some g =>
        have h1 : countE (splitWs l) = 1 := by
          simpa [lineRecords, hpa] using hcnt
        have hrs2 : rs = g :: rs2 := by simpa using hrs
        obtain ⟨hG2, hs⟩ := parseLine_some_scan l g hpa
        have hb : pre.length < (pre ++ g :: rs2).length := by simp
        rw [hrs2, write_gcodeFrom_cons_G1 l rest _ _ hG,
          rewriteParts_one_E (splitWs l) (pre ++ g :: rs2) pre.length g.deposition hb
            (by rw [get_append_cons pre g rs2 hb]) h1]
        have hrec : write_gcodeFrom rest (pre ++ g :: rs2) (pre.length + 1) =
            roundtripExpected rest := by
          have hsplit : pre ++ g :: rs2 = (pre ++ [g]) ++ rs2 := by simp
          have hlen : pre.length + 1 = (pre ++ [g]).length := by simp
          rw [hsplit, hlen]
          exact ih (pre ++ [g]) rs2 hpr harest
        rw [hrec]
        have hmap : (splitWs l).map
            (fun t => if startsC 'E' t then 'E' :: format5 g.deposition else t) =
            (splitWs l).map etokFormat := by
          apply List.map_congr_left
          intro t ht
          by_cases hE : startsC 'E' t = true
          · have hv := scanTokens_single_E (splitWs l) none none none
              (some g.x) (some g.y) g.deposition hs h1 t ht hE
            simp [etokFormat, hE, hv]
          · have hE2 : startsC 'E' t = false := by simpa using hE
            simp [etokFormat, hE2]
        simp [roundtripExpected, hG, hmap]
    · have hG2 : containsG1 l = false := by simpa using hG
      have h0 : parseLine l = .ok none := by rw [parseLine, if_neg (by simp [hG2])]
      rw [hpa] at h0
      simp at h0
      subst h0
      have hrs2 : rs = rs2 := by simpa using hrs
      rw [hrs2, write_gcodeFrom_cons_nG1 l rest _ _ hG2, ih pre rs2 hpr harest]
      simp [roundtripExpected, hG2]

/-- Claim C9 (amended): for an input whose tagged lines are aligned (each
tagged line carries exactly as many deposition tokens as the records it
contributed), extraction, transform over a region containing every
record with ratio `1.0`, and rewrite leave every record numerically
unchanged and produce the original lines with only the fixed 5-decimal
re-formatting of each deposition token from its own original value
(tokens re-joined with single spaces). -/
theorem roundtrip_ratio_one (lines : List (List Char)) (rs : List MotionRecord)
    (xr yr : ℚ × ℚ) (hp : parse_gcode lines = .ok rs)
    (hr : ∀ g ∈ rs, inRegion xr yr g = true) (ha : aligned lines) :
    adjust_extrusion rs xr yr 1 = rs ∧
    write_gcode lines (adjust_extrusion rs xr yr 1) = roundtripExpected lines := by
  have hid := adjust_ratio_one_id rs xr yr hr
  refine ⟨hid, ?_⟩
  rw [hid, write_gcode]
  simpa using write_roundtrip_aux lines [] rs hp ha

/-- Instantiation of C9 (amended) on an aligned two-line file with a
region containing the single record. -/
theorem roundtrip_ratio_one_witness :
    adjust_extrusion [⟨1, 2, 3⟩] (-10, 10) (-10, 10) 1 = [⟨1, 2, 3⟩] ∧
    write_gcode [("G1 X1 Y2 E3").toList, ("M104").toList]
        (adjust_extrusion [⟨1, 2, 3⟩] (-10, 10) (-10, 10) 1) =
      roundtripExpected [("G1 X1 Y2 E3").toList, ("M104").toList] :=
  roundtrip_ratio_one [("G1 X1 Y2 E3").toList, ("M104").toList] [⟨1, 2, 3⟩]
    (-10, 10) (-10, 10) (by decide) (by decide) (by decide)

/-- Claim C9 as stated is false: on `"G1 E5"` followed by
`"G1 X1 Y1 E7"` the extractor skips the first line (no position markers)
but the rewriter still consumes record 0 there, so the first line's
deposition value `5` is replaced by `7.00000` instead of being
reproduced — the §4.4 correspondence hazard. -/
theorem roundtrip_counterexample :
    parse_gcode [("G1 E5").toList, ("G1 X1 Y1 E7").toList] = .ok [⟨1, 1, 7⟩] ∧
    write_gcode [("G1 E5").toList, ("G1 X1 Y1 E7").toList]
        (adjust_extrusion [⟨1, 1, 7⟩] (-100, 100) (-100, 100) 1) ≠
      roundtripExpected [("G1 E5").toList, ("G1 X1 Y1 E7").toList] := by
  exact ⟨by decide, by decide⟩
